import Mathlib

/-!
Verification of the dated-file resolver and identifier normalizer of the
Borolo repository (`src/app.py`, `src/14022026V3app.py`).  Strings are
embedded as `List Char` (Python strings are sequences of code points);
fallible operations return `Option`/`Except`, with a raised-and-caught
Python exception embedded as `none`.
-/

namespace Borolo

/-- The non-breaking-space character U+00A0 (`" "` in the source). -/
def nbsp : Char := Char.ofNat 160

/-- The set of characters Python's `str.strip()` removes and the regex
class `\s` matches on `str` patterns: `\t \n \v \f \r`, U+001C–U+001F,
space, U+0085, U+00A0, U+1680, U+2000–U+200A, U+2028, U+2029, U+202F,
U+205F, U+3000. -/
def pyIsSpace (c : Char) : Bool :=
  decide (9 ≤ c.toNat ∧ c.toNat ≤ 13) || decide (28 ≤ c.toNat ∧ c.toNat ≤ 31) ||
  decide (c.toNat = 32) || decide (c.toNat = 133) || decide (c.toNat = 160) ||
  decide (c.toNat = 5760) || decide (8192 ≤ c.toNat ∧ c.toNat ≤ 8202) ||
  decide (c.toNat = 8232) || decide (c.toNat = 8233) || decide (c.toNat = 8239) ||
  decide (c.toNat = 8287) || decide (c.toNat = 12288)

/-- `.replace(" ", " ")` of `clean_query` / `.str.replace(" ", " ")`
of `clean_id_series`: every non-breaking space becomes an ordinary space. -/
def replaceNbsp (s : List Char) : List Char :=
  s.map fun c => if c = nbsp then ' ' else c

/-- The left half of Python's `str.strip()`: drop leading whitespace. -/
def lstrip (s : List Char) : List Char := s.dropWhile pyIsSpace

/-- The right half of Python's `str.strip()`: drop trailing whitespace. -/
def rstrip (s : List Char) : List Char := (s.reverse.dropWhile pyIsSpace).reverse

/-- Python's `str.strip()`: remove leading and trailing whitespace. -/
def pyStrip (s : List Char) : List Char := rstrip (lstrip s)

/-- Helper for `re.sub(r"\.0$", "", s)` on the reversed character list:
the anchored pattern can match only once, at the very end. -/
def stripDotZeroRev : List Char → List Char
  | [] => []
  | [a] => [a]
  | a :: b :: rest => if a = '0' ∧ b = '.' then rest else a :: b :: rest

/-- `re.sub(r"\.0$", "", s)`: remove one trailing literal `.0` if present. -/
def stripDotZero (s : List Char) : List Char := (stripDotZeroRev s.reverse).reverse

/-- `clean_query` of both app variants applied to a string: replace
non-breaking spaces, strip, then drop one trailing `.0`. -/
def clean_query (s : List Char) : List Char := stripDotZero (pyStrip (replaceNbsp s))

/-- Python's `str(...)` on an optional string argument: `str(None)` is the
four-character string `"None"`. -/
def pyStrOfOpt : Option (List Char) → List Char
  | none => "None".toList
  | some s => s

/-- `clean_query(q)` including its initial `str(q)` coercion, so that the
null/absent case of the spec can be evaluated. -/
def clean_query_val (q : Option (List Char)) : List Char := clean_query (pyStrOfOpt q)

/-- `pandas` rendering of a cell by `.astype(str)`: a missing value (NaN)
renders as the string `"nan"`. -/
def pyStrOfCell : Option (List Char) → List Char
  | none => "nan".toList
  | some s => s

/-- `clean_id_series`: the identifier column rendered to text and passed
through the same replace / strip / drop-`.0` pipeline as `clean_query`. -/
def clean_id_series (col : List (Option (List Char))) : List (List Char) :=
  col.map fun v => clean_query (pyStrOfCell v)

/-- A `datetime.date` value as produced by `datetime.strptime(..).date()`. -/
structure PyDate where
  year : Nat
  month : Nat
  day : Nat
deriving DecidableEq, Repr

/-- Gregorian leap-year rule used by `datetime`. -/
def isLeap (y : Nat) : Bool := decide (y % 4 = 0 ∧ (y % 100 ≠ 0 ∨ y % 400 = 0))

/-- Days in a month as validated by the `datetime` constructor. -/
def daysInMonth (y m : Nat) : Nat :=
  if m = 2 then (if isLeap y then 29 else 28)
  else if m = 4 ∨ m = 6 ∨ m = 9 ∨ m = 11 then 30
  else 31

/-- The validity check of the `datetime` constructor: year 1–9999
(`MINYEAR`–`MAXYEAR`), month 1–12, day within the month. -/
def validDate (y m d : Nat) : Bool :=
  decide (1 ≤ y) && decide (y ≤ 9999) && decide (1 ≤ m) && decide (m ≤ 12) &&
  decide (1 ≤ d) && decide (d ≤ daysInMonth y m)

/-- ASCII decimal digit, the characters matched by `\d` in the filenames'
8-digit date stamps (other Unicode decimal digits do not occur in them). -/
def isDigitChar (c : Char) : Bool := decide (48 ≤ c.toNat) && decide (c.toNat ≤ 57)

/-- Numeric value of a digit string (most-significant digit first), as
`int()` computes it for the fields of a `strptime` match. -/
def digitsToNat : List Char → Nat
  | [] => 0
  | c :: cs => (c.toNat - 48) * 10 ^ cs.length + digitsToNat cs

/-- `datetime.strptime(g, "%Y%m%d").date()` on the 8-digit regex group `g`,
with a raised `ValueError` embedded as `none`.  On eight digits the format
can only consume the whole string as 4+2+2 digits (`%m`/`%d` single-digit
matches leave unconverted data, a `ValueError`), `%m`/`%d` two-digit forms
reject `00`, and the `datetime` constructor then enforces `validDate`; the
net effect is the 4/2/2 split below guarded by `validDate`. -/
def strptime_Ymd (g : List Char) : Option PyDate :=
  if decide (g.length = 8) && g.all isDigitChar then
    let y := digitsToNat (g.take 4)
    let m := digitsToNat ((g.drop 4).take 2)
    let d := digitsToNat (g.drop 6)
    if validDate y m d then some ⟨y, m, d⟩ else none
  else none

/-- `re.match(r"^(\d{8})", name)`: the leading-8-digits group, if any. -/
def reMatchLeading8 (name : List Char) : Option (List Char) :=
  if decide (8 ≤ name.length) && (name.take 8).all isDigitChar then some (name.take 8)
  else none

/-- `extract_yyyymmdd` (both variants): parse the date stamp at the start
of a filename; any failure, including the caught `ValueError`, is `none`. -/
def extract_yyyymmdd (name : List Char) : Option PyDate :=
  match reMatchLeading8 name with
  | none => none
  | some g => strptime_Ymd g

/-- Follows the spec's words (§4.1): if the string's first 8 characters
are all decimal digits and form a valid calendar date `YYYYMMDD`, that
date, else "no date".  Stated directly on slices of the original string,
to be compared with `extract_yyyymmdd`. -/
def spec_dateOfName (name : List Char) : Option PyDate :=
  if 8 ≤ name.length ∧ (name.take 8).all isDigitChar = true then
    let y := digitsToNat (name.take 4)
    let m := digitsToNat ((name.drop 4).take 2)
    let d := digitsToNat ((name.drop 6).take 2)
    if validDate y m d = true then some ⟨y, m, d⟩ else none
  else none

/-- Zero-padded decimal rendering of `n` on exactly `k` digits
(most-significant first), for `n < 10 ^ k`. -/
def natToDigitsPad : Nat → Nat → List Char
  | 0, _ => []
  | k + 1, n => Char.ofNat (48 + n / 10 ^ k) :: natToDigitsPad k (n % 10 ^ k)

/-- Modelled from the spec: "formatting the parsed date back to
`YYYYMMDD`" (§8) — four-digit year, two-digit month, two-digit day,
zero-padded; the source never formats a date back to a stamp itself. -/
def formatYYYYMMDD (d : PyDate) : List Char :=
  natToDigitsPad 4 d.year ++ natToDigitsPad 2 d.month ++ natToDigitsPad 2 d.day

/-- ASCII case of Python's `str.lower()`; the only use sites compare
against the pure-ASCII strings `.xlsx`/`.xlsm`/`.xls` and lowercase
header names, and no character outside A–Z lowercases into ASCII. -/
def pyLowerChar (c : Char) : Char :=
  if decide (65 ≤ c.toNat) && decide (c.toNat ≤ 90) then Char.ofNat (c.toNat + 32) else c

/-- `str.lower()` on a whole string. -/
def pyLower (s : List Char) : List Char := s.map pyLowerChar

/-- `f.lower().endswith((".xlsx", ".xlsm", ".xls"))` of `choose_file_for_date`. -/
def allowedExt (f : List Char) : Bool :=
  (".xlsx".toList).isSuffixOf (pyLower f) || (".xlsm".toList).isSuffixOf (pyLower f) ||
  (".xls".toList).isSuffixOf (pyLower f)

/-- Python string `<`: case-sensitive code-point lexicographic order, a
proper prefix sorting first. -/
def pyStrLt : List Char → List Char → Bool
  | [], [] => false
  | [], _ :: _ => true
  | _ :: _, [] => false
  | a :: as, b :: bs =>
    if a.toNat < b.toNat then true
    else if b.toNat < a.toNat then false
    else pyStrLt as bs

/-- The `candidates` list built by `choose_file_for_date`'s loop: files
with an allowed extension whose parsed date equals the target, in input
order. -/
def exactCandidates (files : List (List Char)) (target : PyDate) : List (List Char) :=
  files.filter fun f => allowedExt f && decide (extract_yyyymmdd f = some target)

/-- Running maximum under `pyStrLt`, seeded with `acc`. -/
def lexLastAux : List (List Char) → List Char → List Char
  | [], acc => acc
  | f :: rest, acc => lexLastAux rest (if pyStrLt acc f then f else acc)

/-- `sorted(candidates)[-1]`: the last element of the ascending sort is
the lexicographic maximum (ties are equal strings, so stability does not
matter), computed here as a running maximum. -/
def sortedLast : List (List Char) → Option (List Char)
  | [] => none
  | f :: rest => some (lexLastAux rest f)

/-- `choose_file_for_date` (both variants): among allowed-extension files
dated exactly `target`, the lexicographically last; `none` if there are
none. -/
def choose_file_for_date (files : List (List Char)) (target : PyDate) : Option (List Char) :=
  sortedLast (exactCandidates files target)

/-- `_norm` (both variants): `re.sub(r"\s+", "", str(s)).strip().lower()` —
remove every whitespace character, strip (by then a no-op, kept as in the
source), lowercase. -/
def norm_header (s : List Char) : List Char :=
  pyLower (pyStrip (s.filter fun c => !pyIsSpace c))

/-- `_find_col` (both variants): the first column whose normalized name
equals the normalized wanted name, else `None`. -/
def find_col (cols : List (List Char)) (wanted : List Char) : Option (List Char) :=
  cols.find? fun c => norm_header c == norm_header wanted

/-- The `wanted_cols` dict of `_prepare_df` in insertion order:
Excel-side logical name, output name. -/
def wanted_cols : List (List Char × List Char) :=
  [("personeelnummer".toList, "personeelnummer".toList),
   ("dienstadres".toList, "Dienstadres".toList),
   ("uur".toList, "uur".toList),
   ("plaats".toList, "plaats".toList),
   ("richting".toList, "richting".toList),
   ("loop".toList, "Loop".toList),
   ("naam".toList, "naam".toList),
   ("voertuig".toList, "voertuig".toList),
   ("wissel".toList, "voertuigwissel".toList)]

/-- The resolution loop of `_prepare_df`: for each wanted column in order,
either record `found ↦ out_name` in the column map or record the logical
name as missing. -/
def resolveCols (cols : List (List Char)) :
    List (List Char × List Char) → List (List Char × List Char) × List (List Char)
  | [] => ([], [])
  | p :: rest =>
    let r := resolveCols cols rest
    match find_col cols p.1 with
    | none => (r.1, p.1 :: r.2)
    | some found => ((found, p.2) :: r.1, r.2)

/-- The column-resolution stage of `_prepare_df` (both variants): raises
`RuntimeError` carrying the missing logical names iff `missing` is
non-empty, else proceeds with the column map.  The later pandas frame
operations (select, rename, clean, sort, index) are presentation plumbing
and not part of this stage. -/
def prepare_df_cols (cols : List (List Char)) :
    Except (List (List Char)) (List (List Char × List Char)) :=
  let r := resolveCols cols wanted_cols
  if r.2.isEmpty then Except.ok r.1 else Except.error r.2

/-- `df["personeelnummer"].fillna("").astype(str)` rendering of one cell
in `render_section` (14022026V3 variant): missing becomes the empty
string (the column has already been through `clean_id_series`). -/
def pnCell : Option (List Char) → List Char
  | none => []
  | some s => s

/-- The row predicate of `render_section` (14022026V3 variant):
`pn == personeelnummer_query`, strict string equality. -/
def exactMatch (cell : Option (List Char)) (query : List Char) : Bool :=
  pnCell cell == query

/-- The lookup of `render_section` (app.py variant):
`personeelnummer_query in df.index` — membership of the query among the
canonical identifiers, again by equality. -/
def indexHasQuery (ids : List (List Char)) (query : List Char) : Bool :=
  ids.contains query

/-- Spec-side rendering for §4.5's "render as text" (amended: a null or
absent value renders as Python's `str(None)`, the string `"None"`, not
the empty string the spec sentence asks for). -/
def specRender : Option (List Char) → List Char
  | none => "None".toList
  | some s => s

/-- Spec side of §4.5: "replace every non-breaking-space character with
an ordinary space", written as its own recursion. -/
def specReplaceNbsp : List Char → List Char
  | [] => []
  | c :: cs => (if c = Char.ofNat 160 then ' ' else c) :: specReplaceNbsp cs

/-- Spec side of §4.5: remove leading whitespace. -/
def specDropLeadingWs : List Char → List Char
  | [] => []
  | c :: cs => if pyIsSpace c then specDropLeadingWs cs else c :: cs

/-- Spec side of §4.5: remove trailing whitespace, by recursion from the
front: a whitespace character survives iff something non-blank follows. -/
def specDropTrailingWs : List Char → List Char
  | [] => []
  | c :: cs =>
    if specDropTrailingWs cs = [] ∧ pyIsSpace c then [] else c :: specDropTrailingWs cs

/-- Spec side of §4.5: "ends with the literal substring `.0`", read off
the last two characters. -/
def specEndsWithDotZero (l : List Char) : Bool :=
  decide (2 ≤ l.length ∧ l.drop (l.length - 2) = ['.', '0'])

/-- Spec side of §4.5: "remove exactly that trailing substring once". -/
def specStripDotZero (l : List Char) : List Char :=
  if specEndsWithDotZero l then l.take (l.length - 2) else l

/-- §4.5's identifier normalization assembled from the spec-side pieces,
to be compared with `clean_query_val`. -/
def specNormalize (v : Option (List Char)) : List Char :=
  specStripDotZero (specDropTrailingWs (specDropLeadingWs (specReplaceNbsp (specRender v))))

/-! ## Helper lemmas -/

/-- `Char.toNat` determines the character. -/
theorem char_toNat_injective {c d : Char} (h : c.toNat = d.toNat) : c = d :=
  Char.eq_of_val_eq (UInt32.toNat.inj h)

/-- Unfolding of `pyStrLt` on two non-empty strings. -/
theorem pyStrLt_cons (x y : Char) (xs ys : List Char) :
    pyStrLt (x :: xs) (y :: ys) = true ↔
      x.toNat < y.toNat ∨ (x.toNat = y.toNat ∧ pyStrLt xs ys = true) := by
  simp only [pyStrLt]
  split_ifs with h1 h2
  · simp only [true_iff]
    exact Or.inl h1
  · simp only [false_iff]
    intro h
    rcases h with h | ⟨h, _⟩ <;> omega
  · have hxy : x.toNat = y.toNat := by omega
    constructor
    · intro h
      exact Or.inr ⟨hxy, h⟩
    · intro h
      rcases h with h | ⟨_, h⟩
      · omega
      · exact h

/-- `pyStrLt` is irreflexive. -/
theorem pyStrLt_irrefl : ∀ l : List Char, pyStrLt l l = false
  | [] => rfl
  | a :: as => by
    simp only [pyStrLt, lt_self_iff_false, if_false]
    exact pyStrLt_irrefl as

/-- `pyStrLt` is transitive. -/
theorem pyStrLt_trans : ∀ a b c : List Char,
    pyStrLt a b = true → pyStrLt b c = true → pyStrLt a c = true
  | _, [], [], _, hbc => by simp [pyStrLt] at hbc
  | [], _ :: _, [], _, hbc => by simp [pyStrLt] at hbc
  | x :: _, _, [], _, hbc => by
    cases ‹List Char› <;> simp [pyStrLt] at hbc
  | [], _, _ :: _, _, _ => by simp [pyStrLt]
  | x :: xs, [], z :: zs, hab, _ => by simp [pyStrLt] at hab
  | x :: xs, y :: ys, z :: zs, hab, hbc => by
    rw [pyStrLt_cons] at hab hbc ⊢
    rcases hab with h1 | ⟨h1, t1⟩
    · rcases hbc with h2 | ⟨h2, _⟩
      · exact Or.inl (by omega)
      · exact Or.inl (by omega)
    · rcases hbc with h2 | ⟨h2, t2⟩
      · exact Or.inl (by omega)
      · exact Or.inr ⟨by omega, pyStrLt_trans xs ys zs t1 t2⟩

/-- Strings unrelated by `pyStrLt` in either direction are equal. -/
theorem pyStrLt_eq_of_not : ∀ a b : List Char,
    pyStrLt a b = false → pyStrLt b a = false → a = b
  | [], [], _, _ => rfl
  | [], _ :: _, hab, _ => by simp [pyStrLt] at hab
  | _ :: _, [], _, hba => by simp [pyStrLt] at hba
  | x :: xs, y :: ys, hab, hba => by
    rw [← Bool.not_eq_true, pyStrLt_cons] at hab hba
    push_neg at hab hba
    have hxy : x.toNat = y.toNat := le_antisymm hba.1 hab.1
    have hx : x = y := char_toNat_injective hxy
    have ht : xs = ys :=
      pyStrLt_eq_of_not xs ys
        (by simpa using hab.2 hxy) (by simpa using hba.2 hxy.symm)
    rw [hx, ht]

/-- The running maximum is the seed or one of the list's elements. -/
theorem lexLastAux_mem (l : List (List Char)) : ∀ acc : List Char,
    lexLastAux l acc = acc ∨ lexLastAux l acc ∈ l := by
  induction l with
  | nil => intro acc; exact Or.inl rfl
  | cons f rest ih =>
    intro acc
    simp only [lexLastAux]
    by_cases hf : pyStrLt acc f = true
    · rw [if_pos hf]
      rcases ih f with h | h
      · exact Or.inr (by rw [h]; exact List.mem_cons_self f rest)
      · exact Or.inr (List.mem_cons_of_mem f h)
    · rw [if_neg hf]
      rcases ih acc with h | h
      · exact Or.inl h
      · exact Or.inr (List.mem_cons_of_mem f h)

/-- Nothing seen so far is above the running maximum. -/
theorem lexLastAux_not_lt (l : List (List Char)) : ∀ acc x : List Char,
    (x = acc ∨ x ∈ l) → pyStrLt (lexLastAux l acc) x = false := by
  induction l with
  | nil =>
    intro acc x h
    rcases h with rfl | h
    · exact pyStrLt_irrefl x
    · exact absurd h (List.not_mem_nil x)
  | cons f rest ih =>
    intro acc x h
    simp only [lexLastAux]
    by_cases hf : pyStrLt acc f = true
    · rw [if_pos hf]
      rcases h with rfl | h
      · -- x is the old seed: the new seed `f` is above it, so the result is too
        have hres : pyStrLt (lexLastAux rest f) f = false := ih f f (Or.inl rfl)
        by_contra hlt
        rw [Bool.not_eq_false] at hlt
        have hc := pyStrLt_trans _ _ _ hlt hf
        rw [hres] at hc
        exact Bool.false_ne_true hc
      · rcases List.mem_cons.mp h with rfl | h
        · exact ih x x (Or.inl rfl)
        · exact ih f x (Or.inr h)
    · rw [if_neg hf]
      rw [Bool.not_eq_true] at hf
      rcases h with rfl | h
      · exact ih x x (Or.inl rfl)
      · rcases List.mem_cons.mp h with rfl | h
        · -- x = f: the seed is not below f, so the result is not either
          have hres : pyStrLt (lexLastAux rest acc) acc = false := ih acc acc (Or.inl rfl)
          by_contra hlt
          rw [Bool.not_eq_false] at hlt
          by_cases hca : pyStrLt acc (lexLastAux rest acc) = true
          · have hc := pyStrLt_trans _ _ _ hca hlt
            rw [hf] at hc
            exact Bool.false_ne_true hc
          · rw [Bool.not_eq_true] at hca
            have heq := pyStrLt_eq_of_not _ _ hres hca
            rw [heq] at hlt
            rw [hlt] at hf
            exact Bool.noConfusion hf
        · exact ih acc x (Or.inr h)

/-- `sorted(l)[-1]` is absent exactly on the empty list. -/
theorem sortedLast_eq_none (l : List (List Char)) : sortedLast l = none ↔ l = [] := by
  cases l <;> simp [sortedLast]

/-- `sorted(l)[-1]` is an element of `l`. -/
theorem sortedLast_mem {l : List (List Char)} {f : List Char}
    (h : sortedLast l = some f) : f ∈ l := by
  cases l with
  | nil => exact absurd h (by simp [sortedLast])
  | cons a rest =>
    simp only [sortedLast, Option.some.injEq] at h
    rcases lexLastAux_mem rest a with hm | hm
    · rw [← h, hm]; exact List.mem_cons_self a rest
    · exact List.mem_cons_of_mem a (h ▸ hm)

/-- `sorted(l)[-1]` is a maximum of `l` under `pyStrLt`. -/
theorem sortedLast_not_lt {l : List (List Char)} {f : List Char}
    (h : sortedLast l = some f) : ∀ g ∈ l, pyStrLt f g = false := by
  intro g hg
  cases l with
  | nil => exact absurd hg (List.not_mem_nil g)
  | cons a rest =>
    simp only [sortedLast, Option.some.injEq] at h
    rcases List.mem_cons.mp hg with rfl | hg
    · exact h ▸ lexLastAux_not_lt rest g g (Or.inl rfl)
    · exact h ▸ lexLastAux_not_lt rest a g (Or.inr hg)

/-- Every other element of `l` is strictly below `sorted(l)[-1]`. -/
theorem sortedLast_ge {l : List (List Char)} {f : List Char}
    (h : sortedLast l = some f) : ∀ g ∈ l, g = f ∨ pyStrLt g f = true := by
  intro g hg
  by_cases hlt : pyStrLt g f = true
  · exact Or.inr hlt
  · rw [Bool.not_eq_true] at hlt
    exact Or.inl (pyStrLt_eq_of_not g f hlt (sortedLast_not_lt h g hg))

/-- Membership in the candidate list, unpacked. -/
theorem mem_exactCandidates {files : List (List Char)} {target : PyDate} {f : List Char}
    (h : f ∈ exactCandidates files target) :
    f ∈ files ∧ allowedExt f = true ∧ extract_yyyymmdd f = some target := by
  rw [exactCandidates, List.mem_filter] at h
  refine ⟨h.1, ?_, ?_⟩
  · exact (Bool.and_eq_true _ _ ▸ h.2).1
  · have := (Bool.and_eq_true _ _ ▸ h.2).2
    exact of_decide_eq_true this

/-! ## Claim theorems -/

/-- C1.  Exact-date file selection: `choose_file_for_date` returns `none`
exactly when no filename with an allowed spreadsheet extension (matched
case-insensitively) parses to the target date; otherwise it returns a
member of that candidate set which sorts last under case-sensitive
code-point lexicographic ordering of the full filename; on the spec's
example list, target 2026-02-14 yields `"20260214_b.xlsx"` and target
2026-02-16 yields `none`. -/
theorem choose_file_for_date_exact_spec :
    (∀ files target, choose_file_for_date files target = none ↔
      exactCandidates files target = []) ∧
    (∀ files target f, choose_file_for_date files target = some f →
      f ∈ exactCandidates files target ∧ allowedExt f = true ∧
      extract_yyyymmdd f = some target ∧
      ∀ g ∈ exactCandidates files target, g = f ∨ pyStrLt g f = true) ∧
    choose_file_for_date
      ["20260214_a.xlsx".toList, "20260214_b.xlsx".toList, "20260215_c.xlsx".toList]
      ⟨2026, 2, 14⟩ = some ("20260214_b.xlsx".toList) ∧
    choose_file_for_date
      ["20260214_a.xlsx".toList, "20260214_b.xlsx".toList, "20260215_c.xlsx".toList]
      ⟨2026, 2, 16⟩ = none := by
  refine ⟨?_, ?_, by decide, by decide⟩
  · intro files target
    exact sortedLast_eq_none (exactCandidates files target)
  · intro files target f h
    have hmem : f ∈ exactCandidates files target := sortedLast_mem h
    have hc := mem_exactCandidates hmem
    exact ⟨hmem, hc.2.1, hc.2.2, sortedLast_ge h⟩

/-- C1 witness: the selected file for 2026-02-14 is indeed a candidate
that no other candidate beats. -/
theorem choose_file_for_date_exact_spec_witness :
    "20260214_b.xlsx".toList ∈
      exactCandidates
        ["20260214_a.xlsx".toList, "20260214_b.xlsx".toList, "20260215_c.xlsx".toList]
        ⟨2026, 2, 14⟩ ∧
    extract_yyyymmdd ("20260214_b.xlsx".toList) = some ⟨2026, 2, 14⟩ := by
  have h := choose_file_for_date_exact_spec.2.1
    ["20260214_a.xlsx".toList, "20260214_b.xlsx".toList, "20260215_c.xlsx".toList]
    ⟨2026, 2, 14⟩ ("20260214_b.xlsx".toList) (by decide)
  exact ⟨h.1, h.2.2.1⟩

/-- C2 counterexample: with today = 2026-02-16 and candidates dated
2026-02-14 and 2026-02-15, the selection function of the source returns
`none`; it does not fall back to `"20260215_c.xlsx"` as the claimed
most-recent-up-to-today mode would. -/
theorem most_recent_fallback_counterexample :
    choose_file_for_date ["20260214_a.xlsx".toList, "20260215_c.xlsx".toList]
      ⟨2026, 2, 16⟩ = none ∧
    choose_file_for_date ["20260214_a.xlsx".toList, "20260215_c.xlsx".toList]
      ⟨2026, 2, 16⟩ ≠ some ("20260215_c.xlsx".toList) := by
  refine ⟨by decide, ?_⟩
  intro h
  rw [(by decide : choose_file_for_date ["20260214_a.xlsx".toList, "20260215_c.xlsx".toList]
      ⟨2026, 2, 16⟩ = none)] at h
  exact Option.noConfusion h

/-- C2 (amended).  The program has no most-recent-up-to-today mode: file
selection is exact-date only, so any selected file parses to exactly the
requested date, and on the spec's example (today 2026-02-16, candidates
dated 02-14 and 02-15) the result is "not found". -/
theorem choose_file_for_date_no_fallback :
    (∀ files target f, choose_file_for_date files target = some f →
      extract_yyyymmdd f = some target) ∧
    choose_file_for_date ["20260214_a.xlsx".toList, "20260215_c.xlsx".toList]
      ⟨2026, 2, 16⟩ = none := by
  refine ⟨?_, by decide⟩
  intro files target f h
  exact (mem_exactCandidates (sortedLast_mem h)).2.2

/-- C2 witness: a file selected for its own date parses back to it. -/
theorem choose_file_for_date_no_fallback_witness :
    extract_yyyymmdd ("20260215_c.xlsx".toList) = some ⟨2026, 2, 15⟩ :=
  choose_file_for_date_no_fallback.1 ["20260215_c.xlsx".toList] ⟨2026, 2, 15⟩
    ("20260215_c.xlsx".toList) (by decide)

/-- `replaceNbsp` agrees with the spec-side recursion. -/
theorem replaceNbsp_eq_spec (s : List Char) : replaceNbsp s = specReplaceNbsp s := by
  induction s with
  | nil => rfl
  | cons c cs ih =>
    simp only [replaceNbsp, List.map_cons, specReplaceNbsp, nbsp]
    rw [show List.map (fun c => if c = Char.ofNat 160 then ' ' else c) cs =
      specReplaceNbsp cs from ih]

/-- `lstrip` agrees with the spec-side recursion. -/
theorem lstrip_eq_spec (s : List Char) : lstrip s = specDropLeadingWs s := by
  induction s with
  | nil => rfl
  | cons c cs ih =>
    simp only [lstrip, List.dropWhile_cons, specDropLeadingWs]
    by_cases h : pyIsSpace c = true
    · rw [if_pos h, if_pos h]; exact ih
    · rw [if_neg h, if_neg h]

/-- `rstrip` agrees with the spec-side recursion. -/
theorem rstrip_eq_spec (s : List Char) : rstrip s = specDropTrailingWs s := by
  induction s with
  | nil => rfl
  | cons c cs ih =>
    have hsp : specDropTrailingWs (c :: cs) =
        if specDropTrailingWs cs = [] ∧ pyIsSpace c = true then []
        else c :: specDropTrailingWs cs := rfl
    rw [hsp]
    simp only [rstrip, List.reverse_cons, List.dropWhile_append]
    by_cases h : (List.dropWhile pyIsSpace cs.reverse).isEmpty = true
    · rw [if_pos h]
      have hnil : List.dropWhile pyIsSpace cs.reverse = [] := by
        cases hh : List.dropWhile pyIsSpace cs.reverse
        · rfl
        · rw [hh] at h; exact absurd h (by simp)
      have hcs : specDropTrailingWs cs = [] := by
        rw [← ih]; simp [rstrip, hnil]
      by_cases hc : pyIsSpace c = true
      · rw [if_pos ⟨hcs, hc⟩]
        simp [List.dropWhile_cons, hc]
      · rw [if_neg (fun hh => hc hh.2)]
        simp [List.dropWhile_cons, hc, hcs]
    · rw [if_neg h]
      have hne : specDropTrailingWs cs ≠ [] := by
        rw [← ih]
        intro hh
        rw [rstrip, List.reverse_eq_nil_iff] at hh
        rw [hh] at h
        exact h (by simp)
      rw [if_neg (fun hh => hne hh.1)]
      rw [List.reverse_append, ← ih]
      rfl

/-- `re.sub(r"\.0$", "", ·)` on a string that does end in `.0`. -/
theorem stripDotZero_append (p : List Char) : stripDotZero (p ++ ['.', '0']) = p := by
  have hrev : (p ++ ['.', '0']).reverse = '0' :: '.' :: p.reverse := by simp
  rw [stripDotZero, hrev]
  simp [stripDotZeroRev]

/-- `re.sub(r"\.0$", "", ·)` on a string that does not end in `.0`. -/
theorem stripDotZero_eq_self (s : List Char) (h : ∀ p : List Char, s ≠ p ++ ['.', '0']) :
    stripDotZero s = s := by
  rcases hs : s.reverse with _ | ⟨a, t⟩
  · rw [stripDotZero, hs]
    simp only [stripDotZeroRev, List.reverse_nil]
    exact (List.reverse_eq_nil_iff.mp hs).symm
  · rcases t with _ | ⟨b, t'⟩
    · have hs2 : s = [a] := by
        have hr := congrArg List.reverse hs
        simpa using hr
      subst hs2
      rfl
    · have hs2 : s = t'.reverse ++ [b, a] := by
        have hr := congrArg List.reverse hs
        simpa using hr
      by_cases hab : a = '0' ∧ b = '.'
      · rcases hab with ⟨rfl, rfl⟩
        exact absurd hs2 (h t'.reverse)
      · rw [stripDotZero, hs]
        simp only [stripDotZeroRev, if_neg hab]
        rw [← hs, List.reverse_reverse]

/-- The spec-side `.0` removal on a string that does end in `.0`. -/
theorem specStripDotZero_append (p : List Char) :
    specStripDotZero (p ++ ['.', '0']) = p := by
  have hlen : (p ++ ['.', '0']).length = p.length + 2 := by simp
  have hend : specEndsWithDotZero (p ++ ['.', '0']) = true := by
    rw [specEndsWithDotZero, decide_eq_true_eq]
    constructor
    · rw [hlen]; omega
    · rw [hlen, Nat.add_sub_cancel, List.drop_left]
  rw [specStripDotZero, if_pos hend, hlen, Nat.add_sub_cancel, List.take_left]

/-- The spec-side `.0` removal on a string that does not end in `.0`. -/
theorem specStripDotZero_eq_self (s : List Char)
    (h : ∀ p : List Char, s ≠ p ++ ['.', '0']) : specStripDotZero s = s := by
  have hend : ¬ specEndsWithDotZero s = true := by
    rw [specEndsWithDotZero, decide_eq_true_eq]
    rintro ⟨h2, hdrop⟩
    apply h (s.take (s.length - 2))
    conv_lhs => rw [← List.take_append_drop (s.length - 2) s]
    rw [hdrop]
  rw [specStripDotZero, if_neg hend]

/-- The two `.0`-removal definitions agree. -/
theorem stripDotZero_eq_specStripDotZero (s : List Char) :
    stripDotZero s = specStripDotZero s := by
  by_cases h : ∃ p : List Char, s = p ++ ['.', '0']
  · rcases h with ⟨p, rfl⟩
    rw [stripDotZero_append, specStripDotZero_append]
  · push_neg at h
    rw [stripDotZero_eq_self s h, specStripDotZero_eq_self s h]

/-- Elements of `lstrip l` come from `l`. -/
theorem mem_of_mem_lstrip {x : Char} {l : List Char} (h : x ∈ lstrip l) : x ∈ l :=
  (List.dropWhile_sublist _).subset h

/-- Elements of `rstrip l` come from `l`. -/
theorem mem_of_mem_rstrip {x : Char} {l : List Char} (h : x ∈ rstrip l) : x ∈ l := by
  rw [rstrip, List.mem_reverse] at h
  exact List.mem_reverse.mp ((List.dropWhile_sublist _).subset h)

/-- `rstrip l` is an initial segment of `l`. -/
theorem rstrip_extends (l : List Char) : ∃ t, rstrip l ++ t = l :=
  ⟨(l.reverse.takeWhile pyIsSpace).reverse, by
    rw [rstrip, ← List.reverse_append, List.takeWhile_append_dropWhile,
      List.reverse_reverse]⟩

/-- `stripDotZero l` is an initial segment of `l`. -/
theorem stripDotZero_extends (l : List Char) : ∃ t, stripDotZero l ++ t = l := by
  by_cases h : ∃ p : List Char, l = p ++ ['.', '0']
  · rcases h with ⟨p, rfl⟩
    exact ⟨['.', '0'], by rw [stripDotZero_append]⟩
  · push_neg at h
    exact ⟨[], by rw [stripDotZero_eq_self l h, List.append_nil]⟩

/-- Elements of `stripDotZero l` come from `l`. -/
theorem mem_of_mem_stripDotZero {x : Char} {l : List Char}
    (h : x ∈ stripDotZero l) : x ∈ l := by
  rcases stripDotZero_extends l with ⟨t, ht⟩
  rw [← ht]
  exact List.mem_append_left t h

/-- `replaceNbsp` leaves no non-breaking space behind. -/
theorem replaceNbsp_no_nbsp (s : List Char) : nbsp ∉ replaceNbsp s := by
  intro h
  rw [replaceNbsp, List.mem_map] at h
  rcases h with ⟨c, _, hc⟩
  by_cases hcn : c = nbsp
  · rw [if_pos hcn] at hc
    exact absurd hc (by decide)
  · rw [if_neg hcn] at hc
    exact hcn hc

/-- A canonical identifier contains no non-breaking space. -/
theorem clean_query_no_nbsp (s : List Char) : nbsp ∉ clean_query s := by
  intro h
  exact replaceNbsp_no_nbsp s
    (mem_of_mem_lstrip (mem_of_mem_rstrip (mem_of_mem_stripDotZero h)))

/-- `replaceNbsp` fixes strings without non-breaking spaces. -/
theorem replaceNbsp_eq_self {s : List Char} (h : nbsp ∉ s) : replaceNbsp s = s := by
  induction s with
  | nil => rfl
  | cons c cs ih =>
    have hc : c ≠ nbsp := fun hh => h (by rw [← hh]; exact List.mem_cons_self c cs)
    have hcs : nbsp ∉ cs := fun hh => h (List.mem_cons_of_mem c hh)
    simp only [replaceNbsp, List.map_cons, if_neg hc]
    rw [show List.map (fun c => if c = nbsp then ' ' else c) cs = replaceNbsp cs from rfl,
      ih hcs]

/-- Removing leading whitespace is idempotent. -/
theorem lstrip_idem (l : List Char) : lstrip (lstrip l) = lstrip l := by
  induction l with
  | nil => rfl
  | cons c cs ih =>
    simp only [lstrip, List.dropWhile_cons]
    by_cases h : pyIsSpace c = true
    · rw [if_pos h]
      exact ih
    · rw [if_neg h, List.dropWhile_cons, if_neg h]

/-- An initial segment of a string without leading whitespace has no
leading whitespace either. -/
theorem lstrip_eq_self_of_extends {l' l : List Char} (hext : ∃ t, l' ++ t = l)
    (hl : lstrip l = l) : lstrip l' = l' := by
  rcases hext with ⟨t, ht⟩
  cases l' with
  | nil => rfl
  | cons c cs =>
    have hc : pyIsSpace c = false := by
      by_contra hc
      rw [Bool.not_eq_false] at hc
      rw [← ht, List.cons_append, lstrip, List.dropWhile_cons, if_pos hc] at hl
      have hlen := congrArg List.length hl
      have hle : (List.dropWhile pyIsSpace (cs ++ t)).length ≤ (cs ++ t).length :=
        (List.dropWhile_sublist _).length_le
      simp only [List.length_cons] at hlen
      omega
    rw [lstrip, List.dropWhile_cons, if_neg (by simp [hc])]

/-- A canonical identifier has no leading whitespace. -/
theorem clean_query_lstrip (s : List Char) : lstrip (clean_query s) = clean_query s := by
  have h1 : lstrip (lstrip (replaceNbsp s)) = lstrip (replaceNbsp s) := lstrip_idem _
  have h2 : lstrip (rstrip (lstrip (replaceNbsp s))) = rstrip (lstrip (replaceNbsp s)) :=
    lstrip_eq_self_of_extends (rstrip_extends _) h1
  exact lstrip_eq_self_of_extends (stripDotZero_extends _) h2

/-- `l.contains a = false` from non-membership. -/
theorem contains_eq_false_of_not_mem {a : Char} {l : List Char} (h : a ∉ l) :
    l.contains a = false := by
  by_contra hc
  rw [Bool.not_eq_false] at hc
  exact h (List.elem_iff.mp hc)

/-- C3 counterexample: normalizing a null value yields the string
`"None"` (Python's `str(None)`), not the empty string the claim states. -/
theorem clean_query_val_none_counterexample :
    clean_query_val none = "None".toList ∧ clean_query_val none ≠ [] :=
  ⟨by decide, by decide⟩

/-- C3 (amended).  Identifier normalization renders the value as text —
with a null rendering as `"None"`, not `""` — replaces every non-breaking
space with a space, strips outer whitespace, and removes one trailing
`.0`: it equals the spec-side step-by-step normalizer on every input, and
satisfies the spec's concrete examples, with `"1.0.0"` witnessing the
remove-only-once rule. -/
theorem clean_query_matches_spec :
    (∀ v, clean_query_val v = specNormalize v) ∧
    clean_query_val (some ("  12345.0 \u00A0".toList)) = "12345".toList ∧
    clean_query_val (some ("AB-12".toList)) = "AB-12".toList ∧
    clean_query_val (some ("1.0.0".toList)) = "1.0".toList ∧
    clean_query_val none = "None".toList := by
  refine ⟨?_, by decide, by decide, by decide, by decide⟩
  intro v
  show stripDotZero (rstrip (lstrip (replaceNbsp (pyStrOfOpt v)))) = _
  have hr : specRender v = pyStrOfOpt v := by cases v <;> rfl
  rw [specNormalize, hr, ← replaceNbsp_eq_spec, ← lstrip_eq_spec, ← rstrip_eq_spec,
    ← stripDotZero_eq_specStripDotZero]

/-- C4 counterexample: normalization is not idempotent — a second pass
over `normalize("5.0.0") = "5.0"` strips again to `"5"`. -/
theorem normalize_not_idempotent_counterexample :
    clean_query (clean_query ("5.0.0".toList)) ≠ clean_query ("5.0.0".toList) := by decide

/-- C4 (amended).  Normalization is idempotent on every input whose
normal form has no trailing whitespace and does not itself end in `.0`;
the general claim fails because removing a trailing `.0` can expose
another `.0` or trailing whitespace. -/
theorem clean_query_idem (s : List Char)
    (h1 : rstrip (clean_query s) = clean_query s)
    (h2 : stripDotZero (clean_query s) = clean_query s) :
    clean_query (clean_query s) = clean_query s := by
  have hn : replaceNbsp (clean_query s) = clean_query s :=
    replaceNbsp_eq_self (clean_query_no_nbsp s)
  have hl : lstrip (clean_query s) = clean_query s := clean_query_lstrip s
  show stripDotZero (rstrip (lstrip (replaceNbsp (clean_query s)))) = clean_query s
  rw [hn, hl, h1, h2]

/-- C4 witness: idempotence at the already-canonical `"AB-12"`. -/
theorem clean_query_idem_witness :
    clean_query (clean_query ("AB-12".toList)) = clean_query ("AB-12".toList) :=
  clean_query_idem ("AB-12".toList) (by decide) (by decide)

/-- C10 counterexample: stripping the trailing `.0` of `"a .0"` leaves
the trailing space in the canonical identifier `"a "`, which is not equal
to its own whitespace-stripped form. -/
theorem canonical_trailing_ws_counterexample :
    clean_query ("a .0".toList) = "a ".toList ∧
    pyStrip (clean_query ("a .0".toList)) ≠ clean_query ("a .0".toList) :=
  ⟨by decide, by decide⟩

/-- C10 (amended).  Every canonical identifier — from `clean_query` or
from a `clean_id_series` column — is free of non-breaking spaces and has
no leading whitespace; it can, however, retain trailing whitespace
exposed by `.0` removal, so equality with the fully stripped form fails
in general. -/
theorem canonical_identifier_invariant :
    (∀ v, (clean_query_val v).contains nbsp = false ∧
      lstrip (clean_query_val v) = clean_query_val v) ∧
    (∀ col x, x ∈ clean_id_series col →
      x.contains nbsp = false ∧ lstrip x = x) := by
  constructor
  · intro v
    exact ⟨contains_eq_false_of_not_mem (clean_query_no_nbsp (pyStrOfOpt v)),
      clean_query_lstrip (pyStrOfOpt v)⟩
  · intro col x hx
    rw [clean_id_series, List.mem_map] at hx
    rcases hx with ⟨v, _, rfl⟩
    exact ⟨contains_eq_false_of_not_mem (clean_query_no_nbsp (pyStrOfCell v)),
      clean_query_lstrip (pyStrOfCell v)⟩

/-- The first four characters of the date stamp are the first four of the name. -/
theorem take8_take4 (name : List Char) : (name.take 8).take 4 = name.take 4 := by
  rw [List.take_take]
  norm_num

/-- Characters 4–5 of the date stamp, read off the original name. -/
theorem take8_mid (name : List Char) :
    ((name.take 8).drop 4).take 2 = (name.drop 4).take 2 := by
  rw [List.drop_take, List.take_take]
  norm_num

/-- Characters 6–7 of the date stamp, read off the original name. -/
theorem take8_last2 (name : List Char) : (name.take 8).drop 6 = (name.drop 6).take 2 :=
  List.drop_take 8 6 name

/-- `extract_yyyymmdd` never looks past the first eight characters. -/
theorem extract_yyyymmdd_take8 (name : List Char) :
    extract_yyyymmdd name = extract_yyyymmdd (name.take 8) := by
  have hg : (name.take 8).take 8 = name.take 8 := by rw [List.take_take]; norm_num
  have hcond : (decide (8 ≤ (name.take 8).length) && (name.take 8).all isDigitChar) =
      (decide (8 ≤ name.length) && (name.take 8).all isDigitChar) := by
    congr 1
    rw [decide_eq_decide, List.length_take]
    omega
  rw [extract_yyyymmdd, extract_yyyymmdd, reMatchLeading8, reMatchLeading8, hg, hcond]

/-- `extract_yyyymmdd` coincides with the spec's characterization. -/
theorem extract_yyyymmdd_eq_spec (name : List Char) :
    extract_yyyymmdd name = spec_dateOfName name := by
  by_cases h1 : 8 ≤ name.length
  · by_cases h2 : (name.take 8).all isDigitChar = true
    · have hre : reMatchLeading8 name = some (name.take 8) := by
        rw [reMatchLeading8, if_pos (by simp [h1, h2])]
      rw [extract_yyyymmdd, hre]
      show strptime_Ymd (name.take 8) = spec_dateOfName name
      have hlen : (name.take 8).length = 8 := by
        rw [List.length_take]; omega
      rw [strptime_Ymd, if_pos (by simp [hlen, h2])]
      simp only [spec_dateOfName, if_pos (And.intro h1 h2), take8_take4, take8_mid,
        take8_last2]
    · have hre : reMatchLeading8 name = none := by
        rw [reMatchLeading8, if_neg (by simp [h2])]
      rw [extract_yyyymmdd, hre]
      show (none : Option PyDate) = spec_dateOfName name
      rw [spec_dateOfName, if_neg (fun hh => h2 hh.2)]
  · have hre : reMatchLeading8 name = none := by
      rw [reMatchLeading8, if_neg (by simp [h1])]
    rw [extract_yyyymmdd, hre]
    show (none : Option PyDate) = spec_dateOfName name
    rw [spec_dateOfName, if_neg (fun hh => h1 hh.1)]

/-- C5.  Date-prefix extraction is total (exceptions are embedded as
`none`), agrees with the spec's first-8-characters characterization,
never scans past the stamp, and rejects short prefixes, month 13, day 32
and stamps that do not start the name. -/
theorem extract_yyyymmdd_spec :
    (∀ name, extract_yyyymmdd name = extract_yyyymmdd (name.take 8)) ∧
    (∀ name, extract_yyyymmdd name = spec_dateOfName name) ∧
    extract_yyyymmdd ("20261301_x.xlsx".toList) = none ∧
    extract_yyyymmdd ("20260232_x.xlsx".toList) = none ∧
    extract_yyyymmdd ("2026021_x.xlsx".toList) = none ∧
    extract_yyyymmdd ("plan_20260214.xlsx".toList) = none ∧
    extract_yyyymmdd ("20260214_a.xlsx".toList) = some ⟨2026, 2, 14⟩ :=
  ⟨extract_yyyymmdd_take8, extract_yyyymmdd_eq_spec, by decide, by decide, by decide,
   by decide, by decide⟩

/-- A digit string's value is bounded by `10 ^ length`. -/
theorem digitsToNat_lt (l : List Char) (h : l.all isDigitChar = true) :
    digitsToNat l < 10 ^ l.length := by
  induction l with
  | nil => simp [digitsToNat]
  | cons c cs ih =>
    rw [List.all_cons, Bool.and_eq_true] at h
    have hc : c.toNat ≤ 57 := by
      have hd := h.1
      rw [isDigitChar, Bool.and_eq_true, decide_eq_true_eq, decide_eq_true_eq] at hd
      exact hd.2
    have hr := ih h.2
    rw [digitsToNat, List.length_cons]
    have hv : c.toNat - 48 ≤ 9 := by omega
    have h1 : (c.toNat - 48) * 10 ^ cs.length ≤ 9 * 10 ^ cs.length :=
      Nat.mul_le_mul_right _ hv
    have h2 : 10 ^ (cs.length + 1) = 10 * 10 ^ cs.length := by ring
    omega

/-- A decimal digit character is recovered from its value. -/
theorem ofNat_digit_eq (c : Char) (h1 : 48 ≤ c.toNat) (h2 : c.toNat ≤ 57) :
    Char.ofNat (48 + (c.toNat - 48)) = c := by
  have hd : c.toNat = 48 ∨ c.toNat = 49 ∨ c.toNat = 50 ∨ c.toNat = 51 ∨ c.toNat = 52 ∨
      c.toNat = 53 ∨ c.toNat = 54 ∨ c.toNat = 55 ∨ c.toNat = 56 ∨ c.toNat = 57 := by omega
  rcases hd with h | h | h | h | h | h | h | h | h | h
  · rw [char_toNat_injective (show c.toNat = ('0' : Char).toNat from by rw [h]; decide)]; decide
  · rw [char_toNat_injective (show c.toNat = ('1' : Char).toNat from by rw [h]; decide)]; decide
  · rw [char_toNat_injective (show c.toNat = ('2' : Char).toNat from by rw [h]; decide)]; decide
  · rw [char_toNat_injective (show c.toNat = ('3' : Char).toNat from by rw [h]; decide)]; decide
  · rw [char_toNat_injective (show c.toNat = ('4' : Char).toNat from by rw [h]; decide)]; decide
  · rw [char_toNat_injective (show c.toNat = ('5' : Char).toNat from by rw [h]; decide)]; decide
  · rw [char_toNat_injective (show c.toNat = ('6' : Char).toNat from by rw [h]; decide)]; decide
  · rw [char_toNat_injective (show c.toNat = ('7' : Char).toNat from by rw [h]; decide)]; decide
  · rw [char_toNat_injective (show c.toNat = ('8' : Char).toNat from by rw [h]; decide)]; decide
  · rw [char_toNat_injective (show c.toNat = ('9' : Char).toNat from by rw [h]; decide)]; decide

/-- Zero-padded rendering inverts `digitsToNat` on digit strings. -/
theorem natToDigitsPad_digitsToNat (l : List Char) (h : l.all isDigitChar = true) :
    natToDigitsPad l.length (digitsToNat l) = l := by
  induction l with
  | nil => rfl
  | cons c cs ih =>
    rw [List.all_cons, Bool.and_eq_true] at h
    have hdig := h.1
    rw [isDigitChar, Bool.and_eq_true, decide_eq_true_eq, decide_eq_true_eq] at hdig
    have hlt : digitsToNat cs < 10 ^ cs.length := digitsToNat_lt cs h.2
    rw [List.length_cons, digitsToNat]
    simp only [natToDigitsPad]
    have hdiv : ((c.toNat - 48) * 10 ^ cs.length + digitsToNat cs) / 10 ^ cs.length
        = c.toNat - 48 := by
      rw [Nat.add_comm,
        Nat.add_mul_div_right _ _ (Nat.pos_pow_of_pos cs.length (by norm_num)),
        Nat.div_eq_of_lt hlt, Nat.zero_add]
    have hmod : ((c.toNat - 48) * 10 ^ cs.length + digitsToNat cs) % 10 ^ cs.length
        = digitsToNat cs := by
      rw [Nat.add_comm, Nat.add_mul_mod_self_right, Nat.mod_eq_of_lt hlt]
    rw [hdiv, hmod, ih h.2, ofNat_digit_eq c hdig.1 hdig.2]

/-- C6.  Round-trip: whenever date extraction succeeds on a filename,
formatting the extracted date back as zero-padded `YYYYMMDD` reproduces
exactly the filename's first eight characters. -/
theorem extract_format_roundtrip (name : List Char) (dte : PyDate)
    (h : extract_yyyymmdd name = some dte) : formatYYYYMMDD dte = name.take 8 := by
  rw [extract_yyyymmdd_eq_spec] at h
  simp only [spec_dateOfName] at h
  by_cases hcond : 8 ≤ name.length ∧ (name.take 8).all isDigitChar = true
  · rw [if_pos hcond] at h
    by_cases hvalid : validDate (digitsToNat (name.take 4))
        (digitsToNat ((name.drop 4).take 2)) (digitsToNat ((name.drop 6).take 2)) = true
    · rw [if_pos hvalid, Option.some.injEq] at h
      subst h
      show natToDigitsPad 4 (digitsToNat (name.take 4)) ++
        (natToDigitsPad 2 (digitsToNat ((name.drop 4).take 2)) ++
          natToDigitsPad 2 (digitsToNat ((name.drop 6).take 2))) = name.take 8
      have h8 := hcond.1
      have hall := List.all_eq_true.mp hcond.2
      have hs4 : ∀ x ∈ name.take 4, x ∈ name.take 8 := by
        intro x hx
        rw [← take8_take4] at hx
        exact List.take_subset _ _ hx
      have hsm : ∀ x ∈ (name.drop 4).take 2, x ∈ name.take 8 := by
        intro x hx
        rw [← take8_mid] at hx
        exact List.drop_subset _ _ (List.take_subset _ _ hx)
      have hsl : ∀ x ∈ (name.drop 6).take 2, x ∈ name.take 8 := by
        intro x hx
        rw [← take8_last2] at hx
        exact List.drop_subset _ _ hx
      have hl4 : (name.take 4).length = 4 := by rw [List.length_take]; omega
      have hlm : ((name.drop 4).take 2).length = 2 := by
        rw [List.length_take, List.length_drop]; omega
      have hll : ((name.drop 6).take 2).length = 2 := by
        rw [List.length_take, List.length_drop]; omega
      have e1 : natToDigitsPad 4 (digitsToNat (name.take 4)) = name.take 4 := by
        have he := natToDigitsPad_digitsToNat (name.take 4)
          (List.all_eq_true.mpr fun x hx => hall x (hs4 x hx))
        rwa [hl4] at he
      have e2 : natToDigitsPad 2 (digitsToNat ((name.drop 4).take 2)) =
          (name.drop 4).take 2 := by
        have he := natToDigitsPad_digitsToNat ((name.drop 4).take 2)
          (List.all_eq_true.mpr fun x hx => hall x (hsm x hx))
        rwa [hlm] at he
      have e3 : natToDigitsPad 2 (digitsToNat ((name.drop 6).take 2)) =
          (name.drop 6).take 2 := by
        have he := natToDigitsPad_digitsToNat ((name.drop 6).take 2)
          (List.all_eq_true.mpr fun x hx => hall x (hsl x hx))
        rwa [hll] at he
      rw [e1, e2, e3]
      have hpiece : ((name.take 8).drop 4).drop 2 = (name.drop 6).take 2 := by
        rw [List.drop_drop]
        norm_num
        exact take8_last2 name
      rw [← take8_take4, ← take8_mid, ← hpiece, List.take_append_drop,
        List.take_append_drop]
    · rw [if_neg hvalid] at h
      exact absurd h (by simp)
  · rw [if_neg hcond] at h
    exact absurd h (by simp)

/-- C6 witness: round-trip at `"20260214_a.xlsx"`. -/
theorem extract_format_roundtrip_witness :
    formatYYYYMMDD ⟨2026, 2, 14⟩ = ("20260214_a.xlsx".toList).take 8 :=
  extract_format_roundtrip ("20260214_a.xlsx".toList) ⟨2026, 2, 14⟩ (by decide)

/-- A successful `find?` finds the first match. -/
theorem find_first {α : Type} (p : α → Bool) (l : List α) : ∀ c : α, l.find? p = some c →
    p c = true ∧ ∃ l1 l2, l = l1 ++ c :: l2 ∧ ∀ x ∈ l1, p x = false := by
  induction l with
  | nil => intro c h; exact absurd h (by simp)
  | cons a rest ih =>
    intro c h
    by_cases ha : p a = true
    · rw [List.find?_cons_of_pos rest ha, Option.some.injEq] at h
      subst h
      exact ⟨ha, [], rest, rfl, by simp⟩
    · rw [List.find?_cons_of_neg rest ha] at h
      rcases ih c h with ⟨hc, l1, l2, hsplit, hl1⟩
      refine ⟨hc, a :: l1, l2, by rw [hsplit, List.cons_append], ?_⟩
      intro x hx
      rcases List.mem_cons.mp hx with rfl | hx
      · rw [Bool.not_eq_true] at ha; exact ha
      · exact hl1 x hx

/-- C7.  Column fuzzy matching: `find_col` returns `none` exactly when no
header normalizes (whitespace removed, case-folded) to the wanted name,
and otherwise returns the first header that does; headers
`["Personeel Nummer", "Uur"]` with wanted `"personeelnummer"` resolve to
`"Personeel Nummer"`. -/
theorem find_col_spec :
    (∀ cols wanted, find_col cols wanted = none ↔
      ∀ c ∈ cols, (norm_header c == norm_header wanted) = false) ∧
    (∀ cols wanted c, find_col cols wanted = some c →
      norm_header c = norm_header wanted ∧
      ∃ l1 l2, cols = l1 ++ c :: l2 ∧ ∀ x ∈ l1, norm_header x ≠ norm_header wanted) ∧
    find_col ["Personeel Nummer".toList, "Uur".toList] ("personeelnummer".toList) =
      some ("Personeel Nummer".toList) := by
  refine ⟨?_, ?_, by decide⟩
  · intro cols wanted
    rw [find_col, List.find?_eq_none]
    constructor
    · intro h c hc
      have hn := h c hc
      rwa [Bool.not_eq_true] at hn
    · intro h c hc
      rw [h c hc]
      simp
  · intro cols wanted c h
    rcases find_first _ cols c h with ⟨hp, l1, l2, hsplit, hl1⟩
    refine ⟨by simpa using hp, l1, l2, hsplit, ?_⟩
    intro x hx hxe
    have hfalse := hl1 x hx
    rw [hxe] at hfalse
    simp at hfalse

/-- C7 witness: the resolved header normalizes to the wanted name. -/
theorem find_col_spec_witness :
    norm_header ("Personeel Nummer".toList) = norm_header ("personeelnummer".toList) :=
  (find_col_spec.2.1 ["Personeel Nummer".toList, "Uur".toList] ("personeelnummer".toList)
    ("Personeel Nummer".toList) (by decide)).1

/-- The `missing` list built by the resolution loop is exactly the wanted
names that fail to resolve, in order. -/
theorem resolveCols_missing (cols : List (List Char)) :
    ∀ wl : List (List Char × List Char),
      (resolveCols cols wl).2 =
        (wl.map Prod.fst).filter (fun w => (find_col cols w).isNone) := by
  intro wl
  induction wl with
  | nil => rfl
  | cons p rest ih =>
    simp only [resolveCols, List.map_cons, List.filter_cons]
    cases hf : find_col cols p.1 with
    | none => simp [hf, ih]
    | some found => simp [hf, ih]

/-- C8.  `_prepare_df` raises iff some required logical column fails to
resolve, the raised failure carries exactly the list of all unresolved
logical names, and when every column resolves no failure is raised; with
only a `uur` header present, the error lists the other eight names. -/
theorem prepare_df_missing_spec :
    (∀ cols e, prepare_df_cols cols = Except.error e ↔
      (e = (wanted_cols.map Prod.fst).filter (fun w => (find_col cols w).isNone) ∧
        e ≠ [])) ∧
    (∀ cols, (∀ w ∈ wanted_cols, (find_col cols w.1).isSome = true) →
      ∃ m, prepare_df_cols cols = Except.ok m) ∧
    prepare_df_cols ["uur".toList] = Except.error
      ["personeelnummer".toList, "dienstadres".toList, "plaats".toList, "richting".toList,
       "loop".toList, "naam".toList, "voertuig".toList, "wissel".toList] := by
  refine ⟨?_, ?_, by rfl⟩
  · intro cols e
    rw [prepare_df_cols]
    have hm := resolveCols_missing cols wanted_cols
    by_cases h : (resolveCols cols wanted_cols).2.isEmpty = true
    · rw [if_pos h]
      constructor
      · intro hh; exact absurd hh (by simp)
      · rintro ⟨he, hne⟩
        have h2 : (resolveCols cols wanted_cols).2 = [] := by
          cases hx : (resolveCols cols wanted_cols).2
          · rfl
          · rw [hx] at h; exact absurd h (by simp)
        rw [he, ← hm, h2] at hne
        exact absurd rfl hne
    · rw [if_neg h]
      constructor
      · intro hh
        rw [Except.error.injEq] at hh
        subst hh
        refine ⟨hm, ?_⟩
        intro hnil
        rw [hnil] at h
        exact h rfl
      · rintro ⟨he, _⟩
        rw [Except.error.injEq, hm, he]
  · intro cols hall
    rw [prepare_df_cols]
    have h2 : (resolveCols cols wanted_cols).2 = [] := by
      rw [resolveCols_missing]
      rw [List.filter_eq_nil_iff]
      intro a ha
      rw [List.mem_map] at ha
      rcases ha with ⟨w, hw, rfl⟩
      have hq := hall w hw
      cases hx : find_col cols w.1
      · rw [hx] at hq; exact absurd hq (by simp)
      · simp [hx]
    rw [if_pos (by rw [h2]; rfl)]
    exact ⟨_, rfl⟩

/-- C8 witness: with all nine headers present, preparation succeeds. -/
theorem prepare_df_missing_spec_witness :
    ∃ m, prepare_df_cols ["personeelnummer".toList, "Dienstadres".toList, "uur".toList,
      "plaats".toList, "richting".toList, "Loop".toList, "naam".toList, "voertuig".toList,
      "wissel".toList] = Except.ok m :=
  prepare_df_missing_spec.2.1 ["personeelnummer".toList, "Dienstadres".toList,
    "uur".toList, "plaats".toList, "richting".toList, "Loop".toList, "naam".toList,
    "voertuig".toList, "wissel".toList] (by decide)

/-- C9 counterexample: the source's only identifier comparisons — the
equality row filter and the index-membership lookup — both reject vehicle
cell `"BUS-6310"` with query `"6310"`; there is no substring mode to
accept it. -/
theorem substring_mode_counterexample :
    exactMatch (some ("BUS-6310".toList)) ("6310".toList) = false ∧
    indexHasQuery ["BUS-6310".toList] ("6310".toList) = false :=
  ⟨by decide, by decide⟩

/-- C9 (amended).  The program supports a single comparison mode on
canonical identifiers: strict string equality (the personnel-number
filter and the index lookup); it never matches on a proper substring, and
in particular `"6310"` does not match cell `"BUS-6310"`. -/
theorem matching_exact_only :
    (∀ cell q, exactMatch cell q = true → pnCell cell = q) ∧
    (∀ ids q, indexHasQuery ids q = true ↔ q ∈ ids) ∧
    exactMatch (some ("BUS-6310".toList)) ("6310".toList) = false ∧
    indexHasQuery ["BUS-6310".toList] ("6310".toList) = false := by
  refine ⟨?_, ?_, by decide, by decide⟩
  · intro cell q h
    rwa [exactMatch, beq_iff_eq] at h
  · intro ids q
    rw [indexHasQuery]
    exact List.elem_iff

/-- C9 witness: equality matching at an exact personnel number. -/
theorem matching_exact_only_witness :
    pnCell (some ("38529".toList)) = "38529".toList :=
  matching_exact_only.1 (some ("38529".toList)) ("38529".toList) (by decide)

end Borolo
